import Mathlib

/-!
Verification of the binary grid-file serialization layer of `mytools`
(`mytools/paraview.py`: the `vtr`, `vts`, `vtu` writers) and of the binary
time-series reader (`mytools/binaryreader.py`: `BinaryReader.sort`).

Modelling conventions.
The writers emit an XML text header followed by an appended-data region:
a single `_` marker byte and then, for each declared array, a 4-byte int32
length prefix (`pack("i", n)`) followed by the packed payload
(`pack("f"*k, ...)` or repeated `pack("i", v)`), 4 bytes per element.
The claims under study concern byte positions, block ordering and element
ordering, never floating-point arithmetic, so each stored 32-bit scalar is
represented by an abstract numeric token (`Int`); a token occupies 4 bytes.
The appended-data region is modelled as the list of write calls performed
by the Python code after the `_` marker, in order (`Chunk`); byte positions
inside the region are recovered from the known byte width of each write.
-/

namespace MyTools

/-- One `fh.write` call into the appended-data region.
`sizeWord n` is `fh.write(pack("i", n))`, the 4-byte length prefix of a
block; `floats vs` is `fh.write(pack("f"*len(vs), *vs))`; `ints vs` is a
run of `fh.write(pack("i", v))` calls, one per element. -/
inductive Chunk where
  | sizeWord (n : Int)
  | floats (vs : List Int)
  | ints (vs : List Int)
deriving DecidableEq, Repr

/-- Byte width of one write call: 4 bytes for an int32, 4 bytes per packed
32-bit element. -/
def chunkBytes : Chunk → Nat
  | Chunk.sizeWord _ => 4
  | Chunk.floats vs => 4 * vs.length
  | Chunk.ints vs => 4 * vs.length

/-- Total byte length of a sequence of writes. -/
def streamBytes (cs : List Chunk) : Nat := (cs.map chunkBytes).sum

/-- Byte positions, relative to the start of the appended-data region
(the byte after the `_` marker), at which each block's 4-byte length
prefix is written; `pos` is the position of the first chunk. -/
def sizeWordPositions (pos : Nat) : List Chunk → List Nat
  | [] => []
  | Chunk.sizeWord _ :: rest => pos :: sizeWordPositions (pos + 4) rest
  | Chunk.floats vs :: rest => sizeWordPositions (pos + 4 * vs.length) rest
  | Chunk.ints vs :: rest => sizeWordPositions (pos + 4 * vs.length) rest

/-- A field passed in `**kwargs`: a numpy array whose leading axis is the
component axis.  The docstring admits `(ndim, nx, ny, nz)` or
`(ndim, nx*ny*nz)`; both are the 2-D component-leading view
`val c p` with `ndim = value.shape[0]` components and `npts` grid points
(for the 4-D form, `p = i + nx*j + nx*ny*k`, its own column-major point
index). -/
structure Field where
  ndim : Nat
  npts : Nat
  val : Nat → Nat → Int

/-- `value.size`: total element count of the array. -/
def Field.size (f : Field) : Nat := f.ndim * f.npts

/-- `value.flatten(order='F')`: column-major (Fortran) linearization of the
component-leading 2-D view, so the flat element at position `m` is
`val (m % ndim) (m / ndim)` — the first (component) axis varies fastest. -/
def flattenF (f : Field) : List Int :=
  (List.range (f.ndim * f.npts)).map (fun m => f.val (m % f.ndim) (m / f.ndim))

/-- Modelled from the spec (for comparison only, not from the source):
"each component is flattened separately and all components for a field are
concatenated into one block per field (component-major layout)". -/
def componentMajorFlatten (f : Field) : List Int :=
  (List.range f.ndim).flatMap (fun c => (List.range f.npts).map (fun p => f.val c p))

/-- Offsets declared in the header for the `PointData` fields: starting
from `off`, each field's `DataArray` is declared at the current `off`,
after which `off += value.size*4 + 4` (paraview.py lines 56–60). -/
def fieldOffsets (off : Nat) : List Field → List Nat
  | [] => []
  | v :: rest => off :: fieldOffsets (off + v.size * 4 + 4) rest

/-- The full list of `DataArray` offsets declared in a `vtr` header, in
declaration order: `x` at `off = 0`, then `off += nx*4 + 4`, `y`, then
`off += ny*4 + 4`, `z`, then `off += nz*4 + 4`, then the fields
(paraview.py lines 37–60). -/
def vtrHeaderOffsets (x y z : List Int) (fields : List Field) : List Nat :=
  let off0 : Nat := 0
  let off1 : Nat := off0 + x.length * 4 + 4
  let off2 : Nat := off1 + y.length * 4 + 4
  let off3 : Nat := off2 + z.length * 4 + 4
  [off0, off1, off2] ++ fieldOffsets off3 fields

/-- The appended-data region written by `vtr` after the `_` marker
(paraview.py lines 67–78): for each coordinate axis a length prefix
`4*n` and the `n` packed floats, then for each field a length prefix
`4*value.size` and the column-major flattened payload. -/
def vtrAppended (x y z : List Int) (fields : List Field) : List Chunk :=
  [Chunk.sizeWord (4 * x.length), Chunk.floats x,
   Chunk.sizeWord (4 * y.length), Chunk.floats y,
   Chunk.sizeWord (4 * z.length), Chunk.floats z]
  ++ fields.flatMap (fun v => [Chunk.sizeWord (4 * v.size), Chunk.floats (flattenF v)])

/-- The `Points` payload written by `vts` (paraview.py lines 127–132):
`for k in range(nz): for j in range(ny): for i in range(nx):` write the
packed floats `x[i,j,k]`, `y[i,j,k]`, `z[i,j,k]`. -/
def vtsPoints (nx ny nz : Nat) (x y z : Nat → Nat → Nat → Int) : List Int :=
  (List.range nz).flatMap (fun k =>
    (List.range ny).flatMap (fun j =>
      (List.range nx).flatMap (fun i => [x i j k, y i j k, z i j k])))

/-- The appended-data region written by `vts` after the `_` marker
(paraview.py lines 126–138): the points block (length prefix `4*nx*ny*nz*3`
then the triple loop), then for each field a length prefix and the
column-major flattened payload. -/
def vtsAppended (nx ny nz : Nat) (x y z : Nat → Nat → Nat → Int)
    (fields : List Field) : List Chunk :=
  [Chunk.sizeWord (4 * nx * ny * nz * 3), Chunk.floats (vtsPoints nx ny nz x y z)]
  ++ fields.flatMap (fun v => [Chunk.sizeWord (4 * v.size), Chunk.floats (flattenF v)])

/-- `cells[i,0]` for each row of the padded connectivity array: the per-cell
vertex count.  A row of the 2-D numpy array is modelled as a `List Int`;
`row.headD 0` is its column 0. -/
def cellSizes (cells : List (List Int)) : List Int :=
  cells.map (fun row => row.headD 0)

/-- Running sums with accumulator: `np.cumsum` computes the inclusive
prefix sums of a 1-D array. -/
def cumsumFrom (acc : Int) : List Int → List Int
  | [] => []
  | s :: rest => (acc + s) :: cumsumFrom (acc + s) rest

/-- `offsets = np.cumsum(cells[:,0])` (paraview.py line 219). -/
def vtuOffsetsArr (cells : List (List Int)) : List Int :=
  cumsumFrom 0 (cellSizes cells)

/-- The connectivity payload written by `vtu` (paraview.py lines 213–215):
`for i in range(nCells): for j in range(cells[i,0]):` write
`pack("i", cells[i,j+1])`.  `range` of a negative count is empty, hence
`.toNat`; out-of-range access defaults to 0 (the theorems assume rows wide
enough, as numpy's rectangular array guarantees). -/
def vtuConnectivity (cells : List (List Int)) : List Int :=
  cells.flatMap (fun row =>
    (List.range (row.headD 0).toNat).map (fun j => row.getD (j + 1) 0))

/-- The appended-data region written by `vtu` after the `_` marker
(paraview.py lines 207–232): points, connectivity (length prefix
`4*np.sum(cells[:,0])`), offsets (`np.cumsum(cells[:,0])`), types, then
the fields.  A point is a row `xyz[i,:]` of three packed floats. -/
def vtuAppended (xyz : List (Int × Int × Int)) (cells : List (List Int))
    (cellTypes : List Int) (fields : List Field) : List Chunk :=
  [Chunk.sizeWord (4 * xyz.length * 3),
   Chunk.floats (xyz.flatMap (fun p => [p.1, p.2.1, p.2.2])),
   Chunk.sizeWord (4 * (cellSizes cells).sum),
   Chunk.ints (vtuConnectivity cells),
   Chunk.sizeWord (4 * cells.length),
   Chunk.ints (vtuOffsetsArr cells),
   Chunk.sizeWord (4 * cells.length),
   Chunk.ints cellTypes]
  ++ fields.flatMap (fun v => [Chunk.sizeWord (4 * v.size), Chunk.floats (flattenF v)])

/-- A concrete padded cells array used as a test input: two cells, with
vertex counts 2 and 1 in column 0, entries `[10, 11]` and `[12]`, and
padding `99` filling the rectangle. -/
def exCells : List (List Int) := [[2, 10, 11, 99], [1, 12, 99, 99]]

/-!
Model of `BinaryReader.sort` (binaryreader.py lines 66–96).

The open file is a byte stream, `List Nat`; `fh.read(n)` takes the next
`n` bytes.  A row format is the list of per-column byte widths (for the
default path, `ncols` copies of `calcsize(prec)`; `customize(fmt)` gives
the widths of the characters of `fmt`).  `struct.unpack` splits the
buffer into per-column byte groups and decodes each group into one scalar;
the decoding is injective and per-group, so a decoded value is represented
by its byte group (`Val`), which preserves exactly the count/order/content
information the claims concern.
-/

/-- One decoded scalar, represented by the bytes of its column. -/
abbrev Val := List Nat

/-- One decoded row (`newline = np.array(unpack(self.fmt, buffer))`). -/
abbrev Row := List Val

/-- Split a buffer into the per-column byte groups given by the format's
column widths, as `struct.unpack` consumes it. -/
def splitBySizes : List Nat → List Nat → Row
  | [], _ => []
  | s :: rest, buf => buf.take s :: splitBySizes rest (buf.drop s)

/-- The shape-relevant state of `self.data`: `np.array(())` is a 1-D empty
array; after one `newline` assignment it is the 1-D row itself; only
`np.vstack` produces a 2-D table. -/
inductive NDData where
  | empty
  | row (r : Row)
  | table (rows : List Row)
deriving DecidableEq, Repr

/-- `self.data.size`: element count of the accumulated array. -/
def ndSize : NDData → Nat
  | NDData.empty => 0
  | NDData.row r => r.length
  | NDData.table rows => (rows.map List.length).sum

/-- Number of dimensions of the accumulated array: `np.array(())` and a
single `newline` are 1-D; only a vstacked result is 2-D. -/
def NDData.ndim : NDData → Nat
  | NDData.empty => 1
  | NDData.row _ => 1
  | NDData.table _ => 2

/-- One update `self.data = np.vstack((self.data, newline)) if
self.data.size else newline` (binaryreader.py lines 91–92). -/
def vstackNew (data : NDData) (newline : Row) : NDData :=
  if ndSize data = 0 then NDData.row newline
  else match data with
    | NDData.empty => NDData.row newline
    | NDData.row r0 => NDData.table [r0, newline]
    | NDData.table rows => NDData.table (rows ++ [newline])

/-- The `while True` row loop of `sort`, structurally recursive on a fuel
bound.  Each iteration reads `nbytes = (sizes).sum` bytes; a short read
(`len(buffer) != self.nbytes`) breaks; otherwise the decoded row is
vstacked, the counter incremented, and when `trunc` is an active int bound
with `count >= trunc` the loop breaks.  When the row width is zero the
Python loop never terminates; the model returns immediately there and
every theorem assumes a positive row width, under which the fuel
`stream.length + 1` supplied by `sortRun` is never exhausted. -/
def sortLoop (sizes : List Nat) (toTruncate : Bool) (trunc : Int) :
    Nat → List Nat → NDData → Nat → NDData × Nat
  | 0, _, data, count => (data, count)
  | fuel + 1, stream, data, count =>
    if sizes.sum = 0 then (data, count)
    else if (stream.take sizes.sum).length ≠ sizes.sum then (data, count)
    else if toTruncate ∧ trunc ≤ (count : Int) + 1 then
      (vstackNew data (splitBySizes sizes (stream.take sizes.sum)), count + 1)
    else sortLoop sizes toTruncate trunc fuel (stream.drop sizes.sum)
      (vstackNew data (splitBySizes sizes (stream.take sizes.sum))) (count + 1)

/-- Run the row loop from the initial state `self.data = np.array(())`,
`count = 0`, with enough fuel for the whole stream. -/
def sortRun (sizes : List Nat) (toTruncate : Bool) (trunc : Int)
    (stream : List Nat) : NDData × Nat :=
  sortLoop sizes toTruncate trunc (stream.length + 1) stream NDData.empty 0

/-- The complete rows available in a stream, in file order: repeatedly
take one row's worth of bytes while at least `nbytes` remain. -/
def streamRowsAux (sizes : List Nat) : Nat → List Nat → List Row
  | 0, _ => []
  | fuel + 1, stream =>
    if sizes.sum = 0 then []
    else if stream.length < sizes.sum then []
    else splitBySizes sizes (stream.take sizes.sum)
      :: streamRowsAux sizes fuel (stream.drop sizes.sum)

/-- The complete rows of a stream under a format. -/
def streamRows (sizes : List Nat) (stream : List Nat) : List Row :=
  streamRowsAux sizes (stream.length + 1) stream

/-- Derived description of how many rows the loop reads from the initial
state: all complete rows when truncation is inactive; with an active int
bound `trunc`, `min(available, max(trunc, 1))` — the bound is only checked
after a row has been read, so even `trunc ≤ 0` consumes one row when one
is available. -/
def sortCount (sizes : List Nat) (toTruncate : Bool) (trunc : Int)
    (stream : List Nat) : Nat :=
  if toTruncate then min (streamRows sizes stream).length (max trunc 1).toNat
  else (streamRows sizes stream).length

/-- Generalization of `sortCount` to an arbitrary starting value of the
row counter, used to state the loop invariant. -/
def sortCountFrom (sizes : List Nat) : Bool → Int → Nat → List Nat → Nat
  | false, _, _, stream => (streamRows sizes stream).length
  | true, trunc, count, stream =>
    min (streamRows sizes stream).length (max (trunc - (count : Int)) 1).toNat

/-- A Python argument value as `sort` discriminates it: `type(x) is int`
holds only for the exact built-in `int` (not `bool`, not `float`, not
`None`). -/
inductive PyArg where
  | none
  | int (n : Int)
  | notInt
deriving DecidableEq, Repr

/-- `type(a) is int`. -/
def PyArg.isInt : PyArg → Bool
  | PyArg.int _ => true
  | _ => false

/-- `BinaryReader.sort(ncols, trunc)` (binaryreader.py lines 66–96).
`customized`/`custSizes` model `self.customized`/`self.fmt` (as per-column
byte widths); `precSize` is `calcsize(self.prec)`.  When `customized` is
false the code asserts `type(ncols) is int` before any read — modelled as
`Except.error ()` (an `AssertionError`) — and otherwise builds the uniform
format `ncols*prec`.  `toTruncate` is `type(trunc) is int`.  Returns
`(self.data, self.nrows)`. -/
def BinaryReaderSort (customized : Bool) (custSizes : List Nat) (precSize : Nat)
    (ncols trunc : PyArg) (stream : List Nat) : Except Unit (NDData × Nat) :=
  let toTruncate := trunc.isInt
  let truncVal : Int := match trunc with | PyArg.int t => t | _ => 0
  match customized with
  | true => Except.ok (sortRun custSizes toTruncate truncVal stream)
  | false =>
    match ncols with
    | PyArg.int n =>
      Except.ok (sortRun (List.replicate n.toNat precSize) toTruncate truncVal stream)
    | _ => Except.error ()

/-! ### Helper lemmas: offsets as running counters -/

/-- Running offset counter over a list of element counts: each declared
array at the current offset, each contributing `n*4 + 4` bytes to the next
offset. -/
def offsetsOf (off : Nat) : List Nat → List Nat
  | [] => []
  | n :: rest => off :: offsetsOf (off + n * 4 + 4) rest

/-- The element counts of the arrays a `vtr` header declares, in order. -/
def vtrSizes (x y z : List Int) (fields : List Field) : List Nat :=
  [x.length, y.length, z.length] ++ fields.map Field.size

theorem flattenF_length (f : Field) : (flattenF f).length = f.size := by
  simp [flattenF, Field.size]

theorem streamBytes_append (l1 l2 : List Chunk) :
    streamBytes (l1 ++ l2) = streamBytes l1 + streamBytes l2 := by
  simp [streamBytes]

theorem sizeWordPositions_fieldBlocks (fields : List Field) (pos : Nat) :
    sizeWordPositions pos (fields.flatMap fun v =>
        [Chunk.sizeWord (4 * v.size), Chunk.floats (flattenF v)])
      = fieldOffsets pos fields := by
  induction fields generalizing pos with
  | nil => rfl
  | cons v rest ih =>
    show pos :: sizeWordPositions (pos + 4 + 4 * (flattenF v).length)
        (rest.flatMap fun v =>
          [Chunk.sizeWord (4 * v.size), Chunk.floats (flattenF v)])
      = fieldOffsets pos (v :: rest)
    rw [flattenF_length, fieldOffsets, ih]
    have h : pos + 4 + 4 * v.size = pos + v.size * 4 + 4 := by ring
    rw [h]

theorem fieldOffsets_eq_offsetsOf (fields : List Field) (off : Nat) :
    fieldOffsets off fields = offsetsOf off (fields.map Field.size) := by
  induction fields generalizing off with
  | nil => rfl
  | cons v rest ih => rw [fieldOffsets, List.map_cons, offsetsOf, ih]

theorem vtrHeaderOffsets_eq_offsetsOf (x y z : List Int) (fields : List Field) :
    vtrHeaderOffsets x y z fields = offsetsOf 0 (vtrSizes x y z fields) := by
  show [0, 0 + x.length * 4 + 4, 0 + x.length * 4 + 4 + y.length * 4 + 4]
      ++ fieldOffsets (0 + x.length * 4 + 4 + y.length * 4 + 4 + z.length * 4 + 4) fields = _
  rw [fieldOffsets_eq_offsetsOf]
  rfl

theorem offsetsOf_length (l : List Nat) : ∀ off, (offsetsOf off l).length = l.length := by
  induction l with
  | nil => intro off; rfl
  | cons n rest ih => intro off; simp [offsetsOf, ih]

theorem offsetsOf_chain (l : List Nat) (off : Nat) :
    List.Chain' (· < ·) (offsetsOf off l) := by
  induction l generalizing off with
  | nil => exact List.chain'_nil
  | cons n rest ih =>
    rw [offsetsOf]
    refine List.chain'_cons'.mpr ⟨?_, ih _⟩
    intro b hb
    cases rest with
    | nil => simp [offsetsOf] at hb
    | cons m r2 =>
      rw [offsetsOf] at hb
      simp only [List.head?_cons, Option.mem_def, Option.some.injEq] at hb
      omega

theorem offsetsOf_getD_succ (l : List Nat) (off j : Nat) (h : j + 1 < l.length) :
    (offsetsOf off l).getD (j + 1) 0
      = (offsetsOf off l).getD j 0 + (4 + 4 * l.getD j 0) := by
  induction l generalizing off j with
  | nil => simp at h
  | cons n rest ih =>
    cases j with
    | zero =>
      cases rest with
      | nil => simp at h
      | cons m r2 =>
        show (offsetsOf (off + n * 4 + 4) (m :: r2)).getD 0 0 = off + (4 + 4 * n)
        rw [offsetsOf]
        show off + n * 4 + 4 = off + (4 + 4 * n)
        ring
    | succ j2 =>
      show (offsetsOf (off + n * 4 + 4) rest).getD (j2 + 1) 0 = _
      rw [ih _ _ (by simpa using h)]
      rfl

/-! ### Claim C1 -/

/-- C1: for every rectilinear-grid write, each `DataArray` offset declared
in the `vtr` header equals the byte position, relative to the start of the
appended-data region, at which that array's 4-byte length prefix is
written; the offsets form a running counter where each array contributes
`4 + 4*element_count` bytes to the next offset, and consecutive offsets
are strictly increasing. -/
theorem C1_vtr_offsets_match (x y z : List Int) (fields : List Field) :
    sizeWordPositions 0 (vtrAppended x y z fields) = vtrHeaderOffsets x y z fields
    ∧ List.Chain' (· < ·) (vtrHeaderOffsets x y z fields)
    ∧ ∀ j, j + 1 < (vtrHeaderOffsets x y z fields).length →
        (vtrHeaderOffsets x y z fields).getD (j + 1) 0
          = (vtrHeaderOffsets x y z fields).getD j 0
            + (4 + 4 * (vtrSizes x y z fields).getD j 0) := by
  have hpos : sizeWordPositions 0 (vtrAppended x y z fields)
      = vtrHeaderOffsets x y z fields := by
    show (0 : Nat) :: (0 + 4 + 4 * x.length) :: (0 + 4 + 4 * x.length + 4 + 4 * y.length)
        :: sizeWordPositions (0 + 4 + 4 * x.length + 4 + 4 * y.length + 4 + 4 * z.length)
          (fields.flatMap fun v => [Chunk.sizeWord (4 * v.size), Chunk.floats (flattenF v)])
      = vtrHeaderOffsets x y z fields
    rw [sizeWordPositions_fieldBlocks]
    show _ = (0 : Nat) :: (0 + x.length * 4 + 4) :: (0 + x.length * 4 + 4 + y.length * 4 + 4)
        :: fieldOffsets (0 + x.length * 4 + 4 + y.length * 4 + 4 + z.length * 4 + 4) fields
    have h3 : 0 + 4 + 4 * x.length + 4 + 4 * y.length + 4 + 4 * z.length
        = 0 + x.length * 4 + 4 + y.length * 4 + 4 + z.length * 4 + 4 := by ring
    have h2 : 0 + 4 + 4 * x.length + 4 + 4 * y.length
        = 0 + x.length * 4 + 4 + y.length * 4 + 4 := by ring
    have h1 : 0 + 4 + 4 * x.length = 0 + x.length * 4 + 4 := by ring
    rw [h3, h2, h1]
  refine ⟨hpos, ?_, ?_⟩
  · rw [vtrHeaderOffsets_eq_offsetsOf]
    exact offsetsOf_chain _ _
  · intro j hj
    rw [vtrHeaderOffsets_eq_offsetsOf] at hj ⊢
    rw [offsetsOf_length] at hj
    exact offsetsOf_getD_succ _ _ _ hj

/-- Witness for C1 at a concrete grid: axes of sizes 2, 1, 1 and one
2-component field on 2 points. -/
theorem C1_vtr_offsets_match_witness :
    sizeWordPositions 0 (vtrAppended [5, 6] [7] [8] [⟨2, 2, fun c p => 10 * c + p⟩])
        = vtrHeaderOffsets [5, 6] [7] [8] [⟨2, 2, fun c p => 10 * c + p⟩]
    ∧ (vtrHeaderOffsets [5, 6] [7] [8] [⟨2, 2, fun c p => 10 * c + p⟩]).getD 1 0
        = (vtrHeaderOffsets [5, 6] [7] [8] [⟨2, 2, fun c p => 10 * c + p⟩]).getD 0 0
          + (4 + 4 * (vtrSizes [5, 6] [7] [8] [⟨2, 2, fun c p => 10 * c + p⟩]).getD 0 0) :=
  ⟨(C1_vtr_offsets_match [5, 6] [7] [8] [⟨2, 2, fun c p => 10 * c + p⟩]).1,
   (C1_vtr_offsets_match [5, 6] [7] [8] [⟨2, 2, fun c p => 10 * c + p⟩]).2.2 0 (by decide)⟩

/-! ### Claim C2 -/

/-- C2 counterexample: for the 2-component field on 2 points with
`val c p = 10*c + p`, the payload the writers emit for the field —
`Chunk.floats (flattenF v)` in `vtrAppended`/`vtsAppended`/`vtuAppended` —
is the Fortran-order flattening `[0, 10, 1, 11]`, in which the two
components of point 0 are adjacent (interleaved per point); it is not the
spec's component-major layout `[0, 1, 10, 11]`. -/
theorem C2_component_major_counterexample :
    flattenF ⟨2, 2, fun c p => 10 * c + p⟩ = [0, 10, 1, 11]
    ∧ componentMajorFlatten ⟨2, 2, fun c p => 10 * c + p⟩ = [0, 1, 10, 11]
    ∧ flattenF ⟨2, 2, fun c p => 10 * c + p⟩
        ≠ componentMajorFlatten ⟨2, 2, fun c p => 10 * c + p⟩
    ∧ vtrAppended [0] [0] [0] [⟨2, 2, fun c p => 10 * c + p⟩]
        = [Chunk.sizeWord 4, Chunk.floats [0], Chunk.sizeWord 4, Chunk.floats [0],
           Chunk.sizeWord 4, Chunk.floats [0],
           Chunk.sizeWord 16, Chunk.floats [0, 10, 1, 11]] := by
  refine ⟨by decide, by decide, by decide, ?_⟩
  rfl

/-- C2 as amended: the field block written by the grid writers is the
Fortran-order flattening of the component-leading array, so the components
of one grid point are adjacent in the block (interleaved per point, the
component index varying fastest): entry `p*ndim + c` is `val c p`. -/
theorem C2_field_block_interleaved (f : Field) (c p : Nat)
    (hc : c < f.ndim) (hp : p < f.npts) :
    (flattenF f).getD (p * f.ndim + c) 0 = f.val c p := by
  have hlt : p * f.ndim + c < f.ndim * f.npts := by
    have h1 : p * f.ndim + c < (p + 1) * f.ndim := by
      rw [Nat.succ_mul]
      omega
    have h2 : (p + 1) * f.ndim ≤ f.npts * f.ndim :=
      Nat.mul_le_mul_right _ hp
    have h3 : f.npts * f.ndim = f.ndim * f.npts := Nat.mul_comm _ _
    omega
  have hmod : (p * f.ndim + c) % f.ndim = c := by
    rw [Nat.mul_comm p f.ndim, Nat.mul_add_mod]
    exact Nat.mod_eq_of_lt hc
  have hdiv : (p * f.ndim + c) / f.ndim = p := by
    rw [Nat.mul_comm p f.ndim, Nat.mul_add_div (by omega)]
    rw [Nat.div_eq_of_lt hc, Nat.add_zero]
  rw [flattenF]
  rw [List.getD_eq_getElem?_getD, List.getElem?_map, List.getElem?_range hlt]
  simp [hmod, hdiv]

/-- Witness for C2 as amended: in the block `[0, 10, 1, 11]` of the
2-component field with `val c p = 10*c + p`, entry `1*2 + 1` is
`val 1 1 = 11`. -/
theorem C2_field_block_interleaved_witness :
    (flattenF ⟨2, 2, fun c p => 10 * c + p⟩).getD (1 * 2 + 1) 0
      = (10 : Int) * 1 + 1 :=
  C2_field_block_interleaved ⟨2, 2, fun c p => 10 * c + p⟩ 1 1
    (by decide) (by decide)

/-! ### Claim C3 -/

/-- C3 counterexample: a 1×1×1 rectilinear grid (one grid point) with a
scalar field of 5 elements is inconsistent (5 ≠ 1·1·1), yet `vtr` raises
no error and writes the full appended-data region — 48 bytes, including
the mismatched field's complete length prefix and payload — so the claim
that a shape mismatch aborts before any byte is written is false. -/
theorem C3_no_shape_check_counterexample :
    Field.size ⟨1, 5, fun _ _ => 2⟩ ≠ 1 * 1 * 1
    ∧ vtrAppended [0] [0] [0] [⟨1, 5, fun _ _ => 2⟩] ≠ []
    ∧ streamBytes (vtrAppended [0] [0] [0] [⟨1, 5, fun _ _ => 2⟩]) = 48 := by
  refine ⟨by decide, by decide, ?_⟩
  rfl

/-- C3 as amended: the writers perform no shape or component validation at
all; `vtr` unconditionally emits every declared block in full, so the
appended-data region always has exactly `6 + 2*#fields` write calls and
`12 + 4*(nx+ny+nz) + Σ (4 + 4*size)` bytes, whether or not the fields are
consistent with the grid. -/
theorem C3_vtr_writes_everything (x y z : List Int) (fields : List Field) :
    (vtrAppended x y z fields).length = 6 + 2 * fields.length
    ∧ streamBytes (vtrAppended x y z fields)
      = 12 + 4 * (x.length + y.length + z.length)
        + (fields.map (fun v => 4 + 4 * v.size)).sum := by
  constructor
  · rw [vtrAppended, List.length_append]
    have h : ∀ fs : List Field,
        (fs.flatMap fun v =>
          [Chunk.sizeWord (4 * v.size), Chunk.floats (flattenF v)]).length
        = 2 * fs.length := by
      intro fs
      induction fs with
      | nil => rfl
      | cons v rest ih =>
        show (Chunk.sizeWord (4 * v.size) :: Chunk.floats (flattenF v) ::
          rest.flatMap _).length = _
        simp only [List.length_cons, ih]
        ring
    rw [h]
    rfl
  · rw [vtrAppended, streamBytes_append]
    have h : ∀ fs : List Field,
        streamBytes (fs.flatMap fun v =>
          [Chunk.sizeWord (4 * v.size), Chunk.floats (flattenF v)])
        = (fs.map (fun v => 4 + 4 * v.size)).sum := by
      intro fs
      induction fs with
      | nil => rfl
      | cons v rest ih =>
        show streamBytes (Chunk.sizeWord (4 * v.size) ::
          Chunk.floats (flattenF v) :: rest.flatMap _) = _
        show 4 + (4 * (flattenF v).length + streamBytes (rest.flatMap _)) = _
        rw [flattenF_length, ih, List.map_cons, List.sum_cons]
        ring
    rw [h]
    show 4 + (4 * x.length + (4 + (4 * y.length + (4 + (4 * z.length + 0))))) + _ = _
    ring

/-! ### Claim C4 -/

theorem cumsumFrom_getD (l : List Int) : ∀ (acc : Int) (i : Nat), i < l.length →
    (cumsumFrom acc l).getD i 0 = acc + (l.take (i + 1)).sum := by
  induction l with
  | nil => intro acc i h; simp at h
  | cons s rest ih =>
    intro acc i h
    cases i with
    | zero => simp [cumsumFrom]
    | succ i2 =>
      show (cumsumFrom (acc + s) rest).getD i2 0 = _
      rw [ih (acc + s) i2 (by simpa using h)]
      simp [List.sum_cons]
      ring

theorem cumsumFrom_chain (l : List Int) : ∀ acc : Int, (∀ s ∈ l, 0 < s) →
    List.Chain' (· < ·) (cumsumFrom acc l) := by
  induction l with
  | nil => intro acc _; exact List.chain'_nil
  | cons s rest ih =>
    intro acc h
    rw [cumsumFrom]
    refine List.chain'_cons'.mpr ⟨?_, ih (acc + s) (fun t ht => h t (by simp [ht]))⟩
    intro b hb
    cases rest with
    | nil => simp [cumsumFrom] at hb
    | cons s2 r2 =>
      rw [cumsumFrom] at hb
      simp only [List.head?_cons, Option.mem_def, Option.some.injEq] at hb
      have hs2 : 0 < s2 := h s2 (by simp)
      omega

/-- C4: for every unstructured-grid write with all per-cell vertex counts
positive, the `offsets` array written by `vtu` is the inclusive prefix sum
of the cell sizes (`offsets[i] = s_0 + ... + s_i`) and is strictly
increasing; in particular cell sizes `[8, 8, 6]` yield `[8, 16, 22]`. -/
theorem C4_vtu_offsets_prefix_sum (cells : List (List Int))
    (h : ∀ row ∈ cells, 0 < row.headD 0) :
    (∀ i, i < cells.length →
        (vtuOffsetsArr cells).getD i 0 = ((cellSizes cells).take (i + 1)).sum)
    ∧ List.Chain' (· < ·) (vtuOffsetsArr cells)
    ∧ vtuOffsetsArr [[8], [8], [6]] = [8, 16, 22] := by
  refine ⟨?_, ?_, by decide⟩
  · intro i hi
    rw [vtuOffsetsArr, cumsumFrom_getD _ _ _ (by simpa [cellSizes] using hi)]
    simp
  · rw [vtuOffsetsArr]
    refine cumsumFrom_chain _ _ ?_
    intro s hs
    rw [cellSizes] at hs
    obtain ⟨row, hrow, rfl⟩ := List.mem_map.mp hs
    exact h row hrow

/-- Witness for C4 at the concrete cell sizes `[8, 8, 6]` of the claim. -/
theorem C4_vtu_offsets_prefix_sum_witness :
    List.Chain' (· < ·) (vtuOffsetsArr [[8], [8], [6]])
    ∧ vtuOffsetsArr [[8], [8], [6]] = [8, 16, 22]
    ∧ (vtuOffsetsArr [[8], [8], [6]]).getD 1 0
        = ((cellSizes [[8], [8], [6]]).take 2).sum :=
  ⟨(C4_vtu_offsets_prefix_sum [[8], [8], [6]] (by decide)).2.1,
   (C4_vtu_offsets_prefix_sum [[8], [8], [6]] (by decide)).2.2,
   (C4_vtu_offsets_prefix_sum [[8], [8], [6]] (by decide)).1 1 (by decide)⟩

/-! ### Claim C5 -/

theorem mulAddLt {a n L b : Nat} (ha : a < n) (hb : b < L) : a * L + b < n * L := by
  have h1 : a * L + b < (a + 1) * L := by rw [Nat.succ_mul]; omega
  have h2 : (a + 1) * L ≤ n * L := Nat.mul_le_mul_right L ha
  omega

theorem length_flatMap_range {α : Type} (f : Nat → List α) (L : Nat)
    (h : ∀ m, (f m).length = L) : ∀ n, ((List.range n).flatMap f).length = n * L := by
  intro n
  induction n with
  | zero => simp
  | succ n ih =>
    rw [List.range_succ, List.flatMap_append, List.length_append, ih]
    simp only [List.flatMap_cons, List.flatMap_nil, List.append_nil]
    rw [h n, Nat.succ_mul]

theorem getD_flatMap_range {α : Type} (f : Nat → List α) (L : Nat) (d : α)
    (h : ∀ m, (f m).length = L) :
    ∀ n a b, a < n → b < L →
      ((List.range n).flatMap f).getD (a * L + b) d = (f a).getD b d := by
  intro n
  induction n with
  | zero => intro a b ha _; exact absurd ha (Nat.not_lt_zero a)
  | succ n ih =>
    intro a b ha hb
    rw [List.range_succ, List.flatMap_append]
    simp only [List.flatMap_cons, List.flatMap_nil, List.append_nil]
    by_cases hcase : a < n
    · rw [List.getD_append]
      · exact ih a b hcase hb
      · rw [length_flatMap_range f L h]
        exact mulAddLt hcase hb
    · have ha2 : a = n := by omega
      subst ha2
      rw [List.getD_append_right]
      · congr 1
        rw [length_flatMap_range f L h]
        omega
      · rw [length_flatMap_range f L h]
        omega

/-- C5: the `vts` Points payload is emitted by the loop nest with `k`
outermost, then `j`, then `i` innermost, writing the triple
`(x[i,j,k], y[i,j,k], z[i,j,k])` at each step, so in the resulting
sequence the point with linear index `i + nx*j + nx*ny*k` (`i` varying
fastest) carries the coordinates of `(i, j, k)`. -/
theorem C5_vts_point_order (nx ny nz : Nat) (x y z : Nat → Nat → Nat → Int)
    (i j k : Nat) (hi : i < nx) (hj : j < ny) (hk : k < nz) :
    (vtsPoints nx ny nz x y z).getD (3 * (i + nx * j + nx * ny * k)) 0 = x i j k
    ∧ (vtsPoints nx ny nz x y z).getD (3 * (i + nx * j + nx * ny * k) + 1) 0 = y i j k
    ∧ (vtsPoints nx ny nz x y z).getD (3 * (i + nx * j + nx * ny * k) + 2) 0 = z i j k := by
  have key : ∀ r, r < 3 →
      (vtsPoints nx ny nz x y z).getD (3 * (i + nx * j + nx * ny * k) + r) 0
        = ([x i j k, y i j k, z i j k]).getD r 0 := by
    intro r hr
    have hidx : 3 * (i + nx * j + nx * ny * k) + r
        = k * (ny * (nx * 3)) + (j * (nx * 3) + (i * 3 + r)) := by ring
    rw [vtsPoints, hidx]
    rw [getD_flatMap_range
        (fun k2 => (List.range ny).flatMap fun j2 =>
          (List.range nx).flatMap fun i2 => [x i2 j2 k2, y i2 j2 k2, z i2 j2 k2])
        (ny * (nx * 3)) 0
        (fun m => length_flatMap_range
          (fun j2 => (List.range nx).flatMap fun i2 => [x i2 j2 m, y i2 j2 m, z i2 j2 m])
          (nx * 3)
          (fun m1 => length_flatMap_range
            (fun i2 => [x i2 m1 m, y i2 m1 m, z i2 m1 m]) 3 (fun _ => rfl) nx) ny)
        nz k _ hk (mulAddLt hj (mulAddLt hi hr))]
    rw [getD_flatMap_range
        (fun j2 => (List.range nx).flatMap fun i2 => [x i2 j2 k, y i2 j2 k, z i2 j2 k])
        (nx * 3) 0
        (fun m1 => length_flatMap_range
          (fun i2 => [x i2 m1 k, y i2 m1 k, z i2 m1 k]) 3 (fun _ => rfl) nx)
        ny j _ hj (mulAddLt hi hr)]
    rw [getD_flatMap_range
        (fun i2 => [x i2 j k, y i2 j k, z i2 j k]) 3 0 (fun _ => rfl) nx i r hi hr]
  refine ⟨?_, ?_, ?_⟩
  · have h0 := key 0 (by omega)
    simpa using h0
  · exact key 1 (by omega)
  · exact key 2 (by omega)

/-- Witness for C5 on a 2×2×2 grid at the point `(1, 0, 1)`. -/
theorem C5_vts_point_order_witness :
    (vtsPoints 2 2 2 (fun i _ _ => 100 + i) (fun _ j _ => 200 + j)
        (fun _ _ k => 300 + k)).getD (3 * (1 + 2 * 0 + 2 * 2 * 1)) 0 = 100 + 1
    ∧ (vtsPoints 2 2 2 (fun i _ _ => 100 + i) (fun _ j _ => 200 + j)
        (fun _ _ k => 300 + k)).getD (3 * (1 + 2 * 0 + 2 * 2 * 1) + 1) 0 = 200 + 0
    ∧ (vtsPoints 2 2 2 (fun i _ _ => 100 + i) (fun _ j _ => 200 + j)
        (fun _ _ k => 300 + k)).getD (3 * (1 + 2 * 0 + 2 * 2 * 1) + 2) 0 = 300 + 1 :=
  C5_vts_point_order 2 2 2 (fun i _ _ => 100 + i) (fun _ j _ => 200 + j)
    (fun _ _ k => 300 + k) 1 0 1 (by decide) (by decide) (by decide)

/-! ### Claim C9 -/

theorem connectivity_row_eq (row : List Int) (s : Nat) (hs : s + 1 ≤ row.length) :
    (List.range s).map (fun j => row.getD (j + 1) 0) = (row.drop 1).take s := by
  apply List.ext_getElem
  · simp
    omega
  · intro i h1 h2
    simp only [List.getElem_map, List.getElem_range]
    have hii : i < s := by simpa using h1
    rw [List.getD_eq_getElem row 0 (show i + 1 < row.length by omega)]
    simp [Nat.add_comm]

theorem sum_toNat_cast (l : List Int) (h : ∀ s ∈ l, 0 ≤ s) :
    ((l.map Int.toNat).sum : Int) = l.sum := by
  induction l with
  | nil => rfl
  | cons s rest ih =>
    simp only [List.map_cons, List.sum_cons, Nat.cast_add]
    rw [ih (fun t ht => h t (by simp [ht])), Int.toNat_of_nonneg (h s (by simp))]

/-- C9: the `vtu` connectivity block contains, for each cell in order,
exactly the entries `cells[i][1]` through `cells[i][cells[i][0]]` — the
count column and any padding beyond `cells[i][0]` are never written — its
element count is the sum of all `cells[i][0]`, and the block's declared
length prefix `4*np.sum(cells[:,0])` equals 4 times that element count. -/
theorem C9_vtu_connectivity (cells : List (List Int))
    (h : ∀ row ∈ cells, (row.headD 0).toNat + 1 ≤ row.length) :
    vtuConnectivity cells
        = cells.flatMap (fun row => (row.drop 1).take (row.headD 0).toNat)
    ∧ (vtuConnectivity cells).length
        = (cells.map (fun row => (row.headD 0).toNat)).sum
    ∧ ((∀ row ∈ cells, 0 ≤ row.headD 0) →
        4 * (cellSizes cells).sum = 4 * ((vtuConnectivity cells).length : Int)) := by
  have hlen : ∀ cs : List (List Int), (vtuConnectivity cs).length
      = (cs.map (fun row => (row.headD 0).toNat)).sum := by
    intro cs
    induction cs with
    | nil => rfl
    | cons row rest ih =>
      show ((List.range (row.headD 0).toNat).map (fun j => row.getD (j + 1) 0)
          ++ vtuConnectivity rest).length = _
      rw [List.length_append, List.length_map, List.length_range, ih]
      simp
  have hrows : ∀ cs : List (List Int),
      (∀ row ∈ cs, (row.headD 0).toNat + 1 ≤ row.length) →
      vtuConnectivity cs
        = cs.flatMap (fun row => (row.drop 1).take (row.headD 0).toNat) := by
    intro cs hcs
    induction cs with
    | nil => rfl
    | cons row rest ih =>
      show (List.range (row.headD 0).toNat).map (fun j => row.getD (j + 1) 0)
          ++ vtuConnectivity rest
        = ((row.drop 1).take (row.headD 0).toNat)
          ++ rest.flatMap (fun row => (row.drop 1).take (row.headD 0).toNat)
      rw [connectivity_row_eq row _ (hcs row (by simp)),
        ih (fun r hr => hcs r (by simp [hr]))]
  refine ⟨hrows cells h, hlen cells, ?_⟩
  · intro h0
    have hnn : ∀ s ∈ cellSizes cells, (0 : Int) ≤ s := by
      intro s hs
      rw [cellSizes] at hs
      obtain ⟨row, hrow, rfl⟩ := List.mem_map.mp hs
      exact h0 row hrow
    have hmap : List.map Int.toNat (cellSizes cells)
        = cells.map (fun row => (row.headD 0).toNat) := by
      rw [cellSizes, List.map_map]
      rfl
    rw [hlen cells, ← sum_toNat_cast (cellSizes cells) hnn, hmap]

/-- Witness for C9 at two padded cells: counts 2 and 1, entries
`[10, 11]` and `[12]`, padding `99` never written. -/
theorem C9_vtu_connectivity_witness :
    vtuConnectivity exCells
        = exCells.flatMap (fun row => (row.drop 1).take (row.headD 0).toNat)
    ∧ (vtuConnectivity exCells).length
        = (exCells.map (fun row => (row.headD 0).toNat)).sum
    ∧ 4 * (cellSizes exCells).sum = 4 * ((vtuConnectivity exCells).length : Int) :=
  ⟨(C9_vtu_connectivity exCells (by decide)).1,
   (C9_vtu_connectivity exCells (by decide)).2.1,
   (C9_vtu_connectivity exCells (by decide)).2.2 (by decide)⟩

/-! ### Lemmas about the row-reading loop -/

theorem sum_replicate_nat (m c : Nat) : (List.replicate m c).sum = m * c := by
  induction m with
  | zero => simp
  | succ m ih =>
    rw [List.replicate_succ, List.sum_cons, ih, Nat.succ_mul]
    omega

theorem splitBySizes_length (sizes : List Nat) :
    ∀ buf, (splitBySizes sizes buf).length = sizes.length := by
  induction sizes with
  | nil => intro buf; rfl
  | cons s rest ih =>
    intro buf
    rw [splitBySizes, List.length_cons, ih, List.length_cons]

theorem streamRowsAux_irrel (sizes : List Nat) :
    ∀ f1 f2 stream, stream.length < f1 → stream.length < f2 →
      streamRowsAux sizes f1 stream = streamRowsAux sizes f2 stream := by
  intro f1
  induction f1 with
  | zero => intro f2 stream h1 _; exact absurd h1 (by omega)
  | succ f1 ih =>
    intro f2 stream h1 h2
    cases f2 with
    | zero => exact absurd h2 (by omega)
    | succ f2 =>
      rw [streamRowsAux, streamRowsAux]
      by_cases hz : sizes.sum = 0
      · rw [if_pos hz, if_pos hz]
      · rw [if_neg hz, if_neg hz]
        by_cases hlt : stream.length < sizes.sum
        · rw [if_pos hlt, if_pos hlt]
        · rw [if_neg hlt, if_neg hlt]
          have hd : (stream.drop sizes.sum).length = stream.length - sizes.sum :=
            List.length_drop _ _
          have hzpos : 0 < sizes.sum := by omega
          rw [ih f2 (stream.drop sizes.sum) (by omega) (by omega)]

theorem streamRows_nil (sizes stream : List Nat) (h : stream.length < sizes.sum) :
    streamRows sizes stream = [] := by
  rw [streamRows, streamRowsAux]
  by_cases hz : sizes.sum = 0
  · exact absurd h (by omega)
  · rw [if_neg hz, if_pos h]

theorem streamRows_cons (sizes stream : List Nat) (h0 : 0 < sizes.sum)
    (h : sizes.sum ≤ stream.length) :
    streamRows sizes stream
      = splitBySizes sizes (stream.take sizes.sum)
        :: streamRows sizes (stream.drop sizes.sum) := by
  rw [streamRows, streamRowsAux]
  have hz : ¬ sizes.sum = 0 := by omega
  have hlt : ¬ stream.length < sizes.sum := by omega
  rw [if_neg hz, if_neg hlt]
  congr 1
  rw [streamRows]
  have hd : (stream.drop sizes.sum).length = stream.length - sizes.sum :=
    List.length_drop _ _
  exact streamRowsAux_irrel sizes _ _ _ (by omega) (by omega)

theorem streamRows_length (sizes : List Nat) (h0 : 0 < sizes.sum) :
    ∀ n stream, stream.length ≤ n →
      (streamRows sizes stream).length = stream.length / sizes.sum := by
  intro n
  induction n with
  | zero =>
    intro stream h
    rw [streamRows_nil sizes stream (by omega), List.length_nil,
      Nat.div_eq_of_lt (by omega)]
  | succ n ih =>
    intro stream h
    by_cases hlt : stream.length < sizes.sum
    · rw [streamRows_nil _ _ hlt, List.length_nil, Nat.div_eq_of_lt hlt]
    · have hd : (stream.drop sizes.sum).length = stream.length - sizes.sum :=
        List.length_drop _ _
      rw [streamRows_cons _ _ h0 (by omega), List.length_cons,
        ih (stream.drop sizes.sum) (by rw [hd]; omega), hd]
      conv_rhs => rw [Nat.div_eq_sub_div h0 (by omega)]

theorem streamRows_cols (sizes : List Nat) :
    ∀ fuel stream row, row ∈ streamRowsAux sizes fuel stream →
      row.length = sizes.length := by
  intro fuel
  induction fuel with
  | zero => intro stream row h; simp [streamRowsAux] at h
  | succ fuel ih =>
    intro stream row h
    rw [streamRowsAux] at h
    by_cases hz : sizes.sum = 0
    · rw [if_pos hz] at h; simp at h
    · rw [if_neg hz] at h
      by_cases hlt : stream.length < sizes.sum
      · rw [if_pos hlt] at h; simp at h
      · rw [if_neg hlt] at h
        rcases List.mem_cons.mp h with he | hm
        · rw [he]; exact splitBySizes_length _ _
        · exact ih _ _ hm

theorem foldl_vstackNew_table (rest : List Row) :
    ∀ pre : List Row, (pre.map List.length).sum ≠ 0 →
      rest.foldl vstackNew (NDData.table pre) = NDData.table (pre ++ rest) := by
  induction rest with
  | nil => intro pre _; simp
  | cons r t ih =>
    intro pre h
    rw [List.foldl_cons]
    have hstep : vstackNew (NDData.table pre) r = NDData.table (pre ++ [r]) := by
      rw [vstackNew, if_neg]
      exact h
    rw [hstep, ih (pre ++ [r]) (by simp; omega)]
    simp

theorem foldl_vstackNew_one (r : Row) :
    [r].foldl vstackNew NDData.empty = NDData.row r := by
  simp [vstackNew, ndSize]

theorem foldl_vstackNew_two (r1 r2 : Row) (rest : List Row) (h1 : r1 ≠ []) :
    (r1 :: r2 :: rest).foldl vstackNew NDData.empty
      = NDData.table (r1 :: r2 :: rest) := by
  rw [List.foldl_cons, List.foldl_cons]
  have hs1 : vstackNew NDData.empty r1 = NDData.row r1 := by
    simp [vstackNew, ndSize]
  have hlen1 : r1.length ≠ 0 := fun hc => h1 (List.eq_nil_of_length_eq_zero hc)
  have hs2 : vstackNew (NDData.row r1) r2 = NDData.table [r1, r2] := by
    rw [vstackNew, if_neg]
    exact hlen1
  have hpre : (([r1, r2] : List Row).map List.length).sum ≠ 0 := by
    rw [List.map_cons, List.map_cons, List.map_nil, List.sum_cons,
      List.sum_cons, List.sum_nil]
    omega
  rw [hs1, hs2, foldl_vstackNew_table rest [r1, r2] hpre]
  rfl

theorem sortCountFrom_zero (sizes : List Nat) (toTr : Bool) (trunc : Int)
    (stream : List Nat) :
    sortCountFrom sizes toTr trunc 0 stream = sortCount sizes toTr trunc stream := by
  cases toTr with
  | false => rw [sortCountFrom, sortCount]; simp
  | true => rw [sortCountFrom, sortCount]; simp

theorem sortLoop_spec (sizes : List Nat) (toTr : Bool) (trunc : Int)
    (h0 : 0 < sizes.sum) :
    ∀ fuel stream (data : NDData) (count : Nat), stream.length < fuel →
      sortLoop sizes toTr trunc fuel stream data count
        = (((streamRows sizes stream).take
              (sortCountFrom sizes toTr trunc count stream)).foldl vstackNew data,
           count + sortCountFrom sizes toTr trunc count stream) := by
  intro fuel
  induction fuel with
  | zero => intro stream data count h; exact absurd h (by omega)
  | succ fuel ih =>
    intro stream data count h
    rw [sortLoop]
    have hz : ¬ sizes.sum = 0 := by omega
    rw [if_neg hz]
    by_cases hshort : stream.length < sizes.sum
    · have hbuf : (stream.take sizes.sum).length ≠ sizes.sum := by
        rw [List.length_take]; omega
      rw [if_pos hbuf]
      have hr0 : streamRows sizes stream = [] := streamRows_nil sizes stream hshort
      have hk : sortCountFrom sizes toTr trunc count stream = 0 := by
        cases toTr with
        | false => rw [sortCountFrom, hr0]; rfl
        | true => rw [sortCountFrom, hr0]; simp
      rw [hk, hr0, List.take_zero, List.foldl_nil, Nat.add_zero]
    · have hge : sizes.sum ≤ stream.length := by omega
      have hbuf : ¬ (stream.take sizes.sum).length ≠ sizes.sum := by
        rw [List.length_take]; omega
      rw [if_neg hbuf]
      have hrows := streamRows_cons sizes stream h0 hge
      have hdlen : (stream.drop sizes.sum).length = stream.length - sizes.sum :=
        List.length_drop _ _
      by_cases hstop : toTr = true ∧ trunc ≤ (count : Int) + 1
      · obtain ⟨htr, hle⟩ := hstop
        subst htr
        rw [if_pos ⟨rfl, hle⟩]
        have hk : sortCountFrom sizes true trunc count stream = 1 := by
          rw [sortCountFrom, hrows, List.length_cons]
          omega
        rw [hk, hrows]
        have htake : (splitBySizes sizes (stream.take sizes.sum)
              :: streamRows sizes (stream.drop sizes.sum)).take 1
            = [splitBySizes sizes (stream.take sizes.sum)] := by
          simp
        rw [htake, List.foldl_cons, List.foldl_nil]
      · rw [if_neg hstop, ih (stream.drop sizes.sum) _ (count + 1)
          (by rw [hdlen]; omega)]
        have hk : sortCountFrom sizes toTr trunc count stream
            = sortCountFrom sizes toTr trunc (count + 1) (stream.drop sizes.sum)
              + 1 := by
          cases toTr with
          | false => rw [sortCountFrom, sortCountFrom, hrows, List.length_cons]
          | true =>
            have hnotle : ¬ trunc ≤ (count : Int) + 1 := fun hc => hstop ⟨rfl, hc⟩
            rw [sortCountFrom, sortCountFrom, hrows, List.length_cons]
            push_cast
            omega
        rw [hrows, hk, List.take_succ_cons, List.foldl_cons, Prod.mk.injEq]
        exact ⟨rfl, by omega⟩

/-! ### Claim C6 -/

/-- C6 counterexample: one complete record (8 bytes, one double column)
read with no truncation yields `self.data` equal to the single decoded
row itself — a 1-dimensional array, not a 2-D table of shape (1, 1) —
because `np.vstack` is only applied from the second row on.  So the claim
fails at r = 1. -/
theorem C6_one_row_counterexample :
    BinaryReaderSort false [] 8 (PyArg.int 1) PyArg.none (List.replicate 8 7)
      = Except.ok (NDData.row [List.replicate 8 7], 1)
    ∧ NDData.ndim (NDData.row [List.replicate 8 7]) = 1
    ∧ NDData.ndim (NDData.row [List.replicate 8 7]) ≠ 2 :=
  ⟨rfl, rfl, by decide⟩

/-- C6 as amended: every complete record decoded becomes one row of
`sizes.length` columns; when the loop reads `r = sortCount ...` rows from
the initial state, the result counter is `r`, and the data is the 2-D
table of the first `r` complete rows in file order when `r ≥ 2`, the
single (1-D) row itself when `r = 1`, and the initial 1-D empty array
when `r = 0`. -/
theorem C6_sort_rows_in_order (sizes stream : List Nat) (toTr : Bool) (trunc : Int)
    (h0 : 0 < sizes.sum) :
    (∀ row ∈ streamRows sizes stream, row.length = sizes.length)
    ∧ (sortRun sizes toTr trunc stream).2 = sortCount sizes toTr trunc stream
    ∧ (2 ≤ sortCount sizes toTr trunc stream →
        (sortRun sizes toTr trunc stream).1
          = NDData.table ((streamRows sizes stream).take
              (sortCount sizes toTr trunc stream)))
    ∧ (sortCount sizes toTr trunc stream = 1 →
        (sortRun sizes toTr trunc stream).1
          = NDData.row ((streamRows sizes stream).getD 0 []))
    ∧ (sortCount sizes toTr trunc stream = 0 →
        (sortRun sizes toTr trunc stream).1 = NDData.empty) := by
  have hcols : ∀ row ∈ streamRows sizes stream, row.length = sizes.length :=
    fun row hr => streamRows_cols sizes _ stream row hr
  have hspec := sortLoop_spec sizes toTr trunc h0 (stream.length + 1) stream
    NDData.empty 0 (by omega)
  rw [sortCountFrom_zero] at hspec
  have hrun : sortRun sizes toTr trunc stream
      = (((streamRows sizes stream).take (sortCount sizes toTr trunc stream)).foldl
          vstackNew NDData.empty, 0 + sortCount sizes toTr trunc stream) := by
    rw [sortRun, hspec]
  have hkle : sortCount sizes toTr trunc stream ≤ (streamRows sizes stream).length := by
    rw [sortCount]
    split
    · omega
    · omega
  have hne : ∀ row ∈ streamRows sizes stream, row ≠ [] := by
    intro row hr hnil
    have hl := hcols row hr
    rw [hnil] at hl
    have : sizes.sum = 0 := by
      cases hs : sizes with
      | nil => rfl
      | cons a t =>
        rw [hs] at hl
        simp at hl
    omega
  refine ⟨hcols, by rw [hrun]; omega, ?_, ?_, ?_⟩
  · intro h2
    rw [hrun]
    cases htake : (streamRows sizes stream).take (sortCount sizes toTr trunc stream) with
    | nil =>
      have hcontra := congrArg List.length htake
      simp only [List.length_take, List.length_nil] at hcontra
      omega
    | cons r1 t =>
      cases t with
      | nil =>
        have hcontra := congrArg List.length htake
        simp only [List.length_take, List.length_cons, List.length_nil] at hcontra
        omega
      | cons r2 rest =>
        have hr1 : r1 ∈ streamRows sizes stream := by
          have : r1 ∈ (streamRows sizes stream).take (sortCount sizes toTr trunc stream) := by
            rw [htake]; simp
          exact List.mem_of_mem_take this
        exact foldl_vstackNew_two r1 r2 rest (hne r1 hr1)
  · intro h1
    rw [hrun]
    have hlen1 : 1 ≤ (streamRows sizes stream).length := by omega
    cases hrows : streamRows sizes stream with
    | nil => rw [hrows] at hlen1; simp at hlen1
    | cons r0 t =>
      rw [h1, List.take_succ_cons, List.take_zero]
      rw [foldl_vstackNew_one]
      rfl
  · intro hzero
    rw [hrun, hzero, List.take_zero, List.foldl_nil]

/-- Witness for C6 as amended, at the claim's own instance: 9 available
single-column double rows (72 bytes) read with the truncation bound 2
yield exactly the first 2 rows, as a 2-D table, in file order. -/
theorem C6_sort_rows_in_order_witness :
    (sortRun [8] true 2 (List.replicate 72 1)).2
        = sortCount [8] true 2 (List.replicate 72 1)
    ∧ (sortRun [8] true 2 (List.replicate 72 1)).1
        = NDData.table ((streamRows [8] (List.replicate 72 1)).take
            (sortCount [8] true 2 (List.replicate 72 1)))
    ∧ sortCount [8] true 2 (List.replicate 72 1) = 2
    ∧ (streamRows [8] (List.replicate 72 1)).length = 9 :=
  ⟨(C6_sort_rows_in_order [8] (List.replicate 72 1) true 2 (by decide)).2.1,
   (C6_sort_rows_in_order [8] (List.replicate 72 1) true 2 (by decide)).2.2.1
     (by decide),
   by decide, by decide⟩

/-! ### Claim C7 -/

/-- C7: a short read at the end of the stream (fewer bytes than one row's
width, including zero) terminates the row loop cleanly — the loop returns
a value, no error — after exactly `stream.length / row_bytes` complete
rows; the `stream.length % row_bytes` trailing partial bytes are
discarded. -/
theorem C7_short_read_discards_tail (sizes stream : List Nat) (trunc : Int)
    (h0 : 0 < sizes.sum) :
    (sortRun sizes false trunc stream).2 = stream.length / sizes.sum
    ∧ (streamRows sizes stream).length = stream.length / sizes.sum
    ∧ (sortRun sizes false trunc stream).2 * sizes.sum
        + stream.length % sizes.sum = stream.length := by
  have hlen := streamRows_length sizes h0 stream.length stream (by omega)
  have hspec := sortLoop_spec sizes false trunc h0 (stream.length + 1) stream
    NDData.empty 0 (by omega)
  have hcount : (sortRun sizes false trunc stream).2
      = (streamRows sizes stream).length := by
    rw [sortRun, hspec]
    show 0 + sortCountFrom sizes false trunc 0 stream = _
    rw [sortCountFrom]
    omega
  refine ⟨by rw [hcount, hlen], hlen, ?_⟩
  rw [hcount, hlen]
  have hdm := Nat.div_add_mod stream.length sizes.sum
  rw [Nat.mul_comm] at hdm
  omega

/-- Witness for C7 at the claim's instance: a file of exactly 2.5 rows'
worth of bytes (60 bytes) for a 3-column double-precision format (24
bytes per row) yields exactly 2 complete rows, discarding 12 bytes. -/
theorem C7_short_read_discards_tail_witness :
    (sortRun [8, 8, 8] false 0 (List.replicate 60 1)).2
        = (List.replicate 60 1).length / ([8, 8, 8] : List Nat).sum
    ∧ (List.replicate (60 : Nat) (1 : Nat)).length / ([8, 8, 8] : List Nat).sum = 2 :=
  ⟨(C7_short_read_discards_tail [8, 8, 8] (List.replicate 60 1) 0 (by decide)).1,
   by decide⟩

/-! ### Claim C8 -/

/-- C8: with no customized format, `sort` asserts `type(ncols) is int`
before touching the stream; when `ncols` is missing or not an int the
call fails (an `AssertionError`, modelled as `Except.error ()`) for every
stream — no row is ever read. -/
theorem C8_sort_requires_int_ncols (custSizes : List Nat) (precSize : Nat)
    (ncols trunc : PyArg) (stream : List Nat) (h : ncols.isInt = false) :
    BinaryReaderSort false custSizes precSize ncols trunc stream
      = Except.error () := by
  cases ncols with
  | int n => rw [PyArg.isInt] at h; exact absurd h (by simp)
  | none => rfl
  | notInt => rfl

/-- Witness for C8: `ncols` omitted (None) fails on a nonempty stream. -/
theorem C8_sort_requires_int_ncols_witness :
    BinaryReaderSort false [] 8 PyArg.none (PyArg.int 3) (List.replicate 16 1)
      = Except.error () :=
  C8_sort_requires_int_ncols [] 8 PyArg.none (PyArg.int 3)
    (List.replicate 16 1) rfl

/-! ### Claim C10 -/

/-- C10 counterexample: with `trunc = 0` (an int) and one complete row
available, the claim demands `min(0, 1) = 0` rows, but the loop checks the
bound only after reading a row, so it reads 1 row. -/
theorem C10_trunc_zero_counterexample :
    BinaryReaderSort false [] 8 (PyArg.int 1) (PyArg.int 0) (List.replicate 8 1)
      = Except.ok (NDData.row [List.replicate 8 1], 1)
    ∧ min (0 : Int) 1 = 0
    ∧ (1 : Int) ≠ 0 :=
  ⟨rfl, by decide, by decide⟩

/-- C10 as amended: truncation is active only when `trunc` is exactly of
type int — any other value reads all complete rows; when `trunc` is an
int `t`, exactly `min(available, max(t, 1))` rows are read, which is
`min(t, available)` for `t ≥ 1` but still one row for `t ≤ 0` when a
complete row is available. -/
theorem C10_truncation_behavior (precSize : Nat) (n : Int) (trunc : PyArg)
    (stream : List Nat) (hp : 0 < precSize) (hn : 0 < n) :
    (trunc.isInt = false →
      BinaryReaderSort false [] precSize (PyArg.int n) trunc stream
        = Except.ok (sortRun (List.replicate n.toNat precSize) false 0 stream)
      ∧ (sortRun (List.replicate n.toNat precSize) false 0 stream).2
        = (streamRows (List.replicate n.toNat precSize) stream).length)
    ∧ (∀ t : Int, trunc = PyArg.int t →
      BinaryReaderSort false [] precSize (PyArg.int n) trunc stream
        = Except.ok (sortRun (List.replicate n.toNat precSize) true t stream)
      ∧ (sortRun (List.replicate n.toNat precSize) true t stream).2
        = min (streamRows (List.replicate n.toNat precSize) stream).length
            (max t 1).toNat) := by
  have hsum : 0 < (List.replicate n.toNat precSize).sum := by
    rw [sum_replicate_nat]
    have : 0 < n.toNat := by omega
    exact Nat.mul_pos this hp
  constructor
  · intro hni
    constructor
    · cases trunc with
      | int t => rw [PyArg.isInt] at hni; exact absurd hni (by simp)
      | none => rfl
      | notInt => rfl
    · have hspec := sortLoop_spec (List.replicate n.toNat precSize) false 0 hsum
        (stream.length + 1) stream NDData.empty 0 (by omega)
      rw [sortRun, hspec]
      show 0 + sortCountFrom (List.replicate n.toNat precSize) false 0 0 stream = _
      rw [sortCountFrom]
      omega
  · intro t ht
    subst ht
    constructor
    · rfl
    · have hspec := sortLoop_spec (List.replicate n.toNat precSize) true t hsum
        (stream.length + 1) stream NDData.empty 0 (by omega)
      rw [sortRun, hspec]
      show 0 + sortCountFrom (List.replicate n.toNat precSize) true t 0 stream = _
      rw [sortCountFrom]
      push_cast
      omega

/-- Witness for C10 as amended at `trunc = 0`, `ncols = 1`, an 8-byte
stream: the loop reads `min(1, max(0,1)) = 1` row. -/
theorem C10_truncation_behavior_witness :
    (BinaryReaderSort false [] 8 (PyArg.int 1) (PyArg.int 0) (List.replicate 8 1)
        = Except.ok (sortRun (List.replicate (1 : Int).toNat 8) true 0
            (List.replicate 8 1))
      ∧ (sortRun (List.replicate (1 : Int).toNat 8) true 0 (List.replicate 8 1)).2
        = min (streamRows (List.replicate (1 : Int).toNat 8)
            (List.replicate 8 1)).length (max (0 : Int) 1).toNat)
    ∧ min (streamRows (List.replicate (1 : Int).toNat 8)
        (List.replicate 8 1)).length (max (0 : Int) 1).toNat = 1 :=
  ⟨(C10_truncation_behavior 8 1 (PyArg.int 0) (List.replicate 8 1)
      (by decide) (by decide)).2 0 rfl,
   by decide⟩

end MyTools
